import Mathlib

/-!
Verification development for the command-composition and execution engine of
`tools/impl/common.py` and the syscall-table duplicate filter
`jail/seccomp/detect_duplication.py`.

Pure Python functions are embedded as Lean functions; process execution is
modelled by an oracle (`Runner`) describing the outcome of each spawned
process; Python exceptions are modelled with `Except`/`Option`.
-/

/-- Ceiling division on naturals, modelling Python's `math.ceil(a / b)` for
non-negative integers `a`, `b` (`b > 0`).  (CPython evaluates `a / b` in
floating point; that is exact for every realizable list length, and the
integer ceiling is the intended value.) -/
def cdiv (a b : Nat) : Nat := (a + b - 1) / b

/-- The slices `source_list[index : min(index + size, len(source_list))]` for
`index in range(0, len(source_list), size)`, as produced by the loop in
`batched` (`tools/impl/common.py`). -/
def pySlices : List α → Nat → List (List α)
  | _, 0 => []
  | [], _ + 1 => []
  | x :: xs, s + 1 => (x :: xs).take (s + 1) :: pySlices ((x :: xs).drop (s + 1)) (s + 1)
termination_by l _ => l.length
decreasing_by simp; omega

/-- `batched(source, max_batch_size)` from `tools/impl/common.py`.  The two
`ceil` divisions raise `ZeroDivisionError` when their divisor is zero; the
second divisor is `batch_count = ceil(n / max_batch_size)`, which is zero
exactly when the source is empty.  (In the source the error is raised lazily,
when the returned generator is first consumed.) -/
def batched (source : List α) (max_batch_size : Nat) : Except String (List (List α)) :=
  if max_batch_size = 0 then .error "ZeroDivisionError"
  else
    let batch_count := cdiv source.length max_batch_size
    if batch_count = 0 then .error "ZeroDivisionError"
    else .ok (pySlices source (cdiv source.length batch_count))

/-- Python `str` whitespace (ASCII part): the characters stripped by
`str.strip()` and separating fields for `str.split()`. -/
def pySpace (c : Char) : Bool :=
  c == ' ' || c == '\t' || c == '\n' || c == '\r' || c == '\x0b' || c == '\x0c'

/-- Python `str.strip()` (ASCII whitespace). -/
def pyStrip (s : String) : String :=
  String.mk (((s.data.dropWhile pySpace).reverse.dropWhile pySpace).reverse)

/-- Worker for `pySplitWs`: accumulate the current word, emit it at each
whitespace run. -/
def pySplitWsGo (cur : List Char) : List Char → List String
  | [] => if cur = [] then [] else [String.mk cur]
  | c :: rest =>
    if pySpace c then
      if cur = [] then pySplitWsGo [] rest
      else String.mk cur :: pySplitWsGo [] rest
    else pySplitWsGo (cur ++ [c]) rest

/-- Python `str.split()` with no arguments: split on runs of whitespace,
discarding empty fragments. -/
def pySplitWs (s : String) : List String := pySplitWsGo [] s.data

/-- States of the CPython `csv` reader automaton (`Modules/_csv.c`),
specialized to `delimiter=' '`, `quotechar='"'`, `doublequote=True`,
`escapechar=None`, `skipinitialspace=False`, `strict=False`, which is the
configuration used by `Command.__shell_like_split` in `tools/impl/common.py`. -/
inductive SplitState where
  | startRecord
  | eatCrnl
  | startField
  | inField
  | inQuoted
  | quoteInQuoted
deriving DecidableEq, Repr

/-- One transition of the csv reader on character `c`.  The reader consumes
`StringIO(value)` line by line; since lines produced by `StringIO` contain
`'\n'` only as their final character, the end-of-line processing of `_csv.c`
is folded into the `'\n'` transition.  `none` models `csv.Error` (a character
following `'\r'` that is not a line break). -/
def csvStep : SplitState → List Char → List String → Char →
    Option (SplitState × List Char × List String)
  | .startRecord, cur, fields, c =>
    if c = '\n' then some (.startRecord, cur, fields)
    else if c = '\r' then some (.eatCrnl, cur, fields)
    else if c = '"' then some (.inQuoted, cur, fields)
    else if c = ' ' then some (.startField, cur, fields ++ [""])
    else some (.inField, cur ++ [c], fields)
  | .startField, cur, fields, c =>
    if c = '\n' then some (.startRecord, [], fields ++ [""])
    else if c = '\r' then some (.eatCrnl, [], fields ++ [""])
    else if c = '"' then some (.inQuoted, cur, fields)
    else if c = ' ' then some (.startField, cur, fields ++ [""])
    else some (.inField, cur ++ [c], fields)
  | .inField, cur, fields, c =>
    if c = '\n' then some (.startRecord, [], fields ++ [String.mk cur])
    else if c = '\r' then some (.eatCrnl, [], fields ++ [String.mk cur])
    else if c = ' ' then some (.startField, [], fields ++ [String.mk cur])
    else some (.inField, cur ++ [c], fields)
  | .inQuoted, cur, fields, c =>
    if c = '"' then some (.quoteInQuoted, cur, fields)
    else some (.inQuoted, cur ++ [c], fields)
  | .quoteInQuoted, cur, fields, c =>
    if c = '"' then some (.inQuoted, cur ++ ['"'], fields)
    else if c = ' ' then some (.startField, [], fields ++ [String.mk cur])
    else if c = '\n' then some (.startRecord, [], fields ++ [String.mk cur])
    else if c = '\r' then some (.eatCrnl, [], fields ++ [String.mk cur])
    else some (.inField, cur ++ [c], fields)
  | .eatCrnl, cur, fields, c =>
    if c = '\n' then some (.startRecord, cur, fields)
    else if c = '\r' then some (.eatCrnl, cur, fields)
    else none

/-- Fields saved at end of input (the final end-of-line processing plus the
end-of-iterator handling of `_csv.c`). -/
def csvFinish (st : SplitState) (cur : List Char) (fields : List String) : List String :=
  match st with
  | .startRecord => fields
  | .eatCrnl => fields
  | .startField => fields ++ [""]
  | .inField => fields ++ [String.mk cur]
  | .inQuoted => fields ++ [String.mk cur]
  | .quoteInQuoted => fields ++ [String.mk cur]

/-- Runs the csv reader over the remaining input characters. -/
def csvRun (st : SplitState) (cur : List Char) (fields : List String) :
    List Char → Option (List String)
  | [] => some (csvFinish st cur fields)
  | c :: rest =>
    match csvStep st cur fields c with
    | none => none
    | some (st', cur', fields') => csvRun st' cur' fields' rest

/-- `Command.__shell_like_split` from `tools/impl/common.py`: csv-split the
value by spaces (quote-aware), yielding only the non-empty fields. -/
def shell_like_split (s : String) : Option (List String) :=
  (csvRun .startRecord [] [] s.data).map (List.filter (fun a => a ≠ ""))

/-- A non-`Command` argument given to `Command.__parse_cmd_args`
(`tools/impl/common.py`).  A nested `Command` argument (which is executed and
its captured stdout split) is outside this pure embedding.
`path s` is a `pathlib.Path` whose `str()` is `s`; `quotedString s` is a
`QuotedString` whose `value` is `s`; `noneFalse` is `None` or `False`;
`other s` is any other value whose `str()` is `s`. -/
inductive Arg where
  | path (s : String)
  | quotedString (s : String)
  | noneFalse
  | other (s : String)
deriving DecidableEq, Repr

/-- `Command.__parse_cmd_args` from `tools/impl/common.py` (non-`Command`
arguments). -/
def parse_cmd_args : Arg → Option (List String)
  | .path s => some [s]
  | .quotedString s => some [s]
  | .noneFalse => some []
  | .other s => shell_like_split s

/-- `Command.__parse_cmd` from `tools/impl/common.py`: parse each argument in
order, left to right, and concatenate the token lists; a `csv.Error` from any
argument propagates. -/
def parse_cmd : List Arg → Option (List String)
  | [] => some []
  | a :: rest =>
    match parse_cmd_args a with
    | none => none
    | some ts =>
      match parse_cmd rest with
      | none => none
      | some rs => some (ts ++ rs)

/-- A specification word used to state the splitting contract: a plain run of
ordinary characters, or a double-quoted span. -/
inductive SWord where
  | plain (s : String)
  | quotedW (s : String)
deriving DecidableEq, Repr

/-- The text a word occupies in the raw string. -/
def SWord.render : SWord → String
  | .plain s => s
  | .quotedW s => "\"" ++ s ++ "\""

/-- The token a word is expected to contribute (quotes stripped). -/
def SWord.content : SWord → String
  | .plain s => s
  | .quotedW s => s

/-- Characters allowed in a plain word: anything except the separators
(space, line breaks), the quote character and NUL.  Note that tab is an
ordinary character here. -/
def plainCharOK (c : Char) : Bool :=
  !(c == ' ' || c == '\n' || c == '\r' || c == '"' || c == '\x00')

/-- Characters allowed inside a double-quoted span: anything except the quote
character and NUL (spaces and line breaks are allowed). -/
def quotedCharOK (c : Char) : Bool := !(c == '"' || c == '\x00')

/-- Wellformedness of a specification word. -/
def SWord.wfb : SWord → Bool
  | .plain s => !(s == "") && s.data.all plainCharOK
  | .quotedW s => s.data.all quotedCharOK

/-- A chunk of a raw argument string: a word or a single separator character. -/
inductive Chunk where
  | word (w : SWord)
  | sep (c : Char)
deriving DecidableEq, Repr

/-- The text of a chunk. -/
def Chunk.render : Chunk → String
  | .word w => w.render
  | .sep c => String.singleton c

/-- The characters of a chunk sequence. -/
def chunksData (cs : List Chunk) : List Char :=
  (cs.map (fun ch => ch.render.data)).flatten

/-- The full raw string of a chunk sequence. -/
def chunksRender (cs : List Chunk) : String := String.mk (chunksData cs)

/-- Valid separator characters: space or newline. -/
def sepOKb (c : Char) : Bool := c == ' ' || c == '\n'

/-- Wellformed chunk sequences: words are wellformed, separators are spaces or
newlines, and two words are never adjacent (they are always separated). -/
def chunksWFb : List Chunk → Bool
  | [] => true
  | .sep c :: rest => sepOKb c && chunksWFb rest
  | [.word w] => w.wfb
  | .word _ :: .word _ :: _ => false
  | .word w :: .sep c :: rest => w.wfb && (sepOKb c && chunksWFb rest)

/-- The tokens a wellformed chunk sequence is expected to split into: the word
contents, in order, with empty contents dropped. -/
def chunksTokens (cs : List Chunk) : List String :=
  cs.filterMap fun ch =>
    match ch with
    | .word w => if w.content = "" then none else some w.content
    | .sep _ => none

/-- A `Command` value from `tools/impl/common.py`: token vector `args`,
optional upstream pipe source `stdin_cmd`, environment overrides `env_vars`
(a Python `dict`, modelled as an ordered association list with unique keys),
and the executable resolved at construction (`none` models the attribute
never having been assigned, which happens when `args` is empty). -/
inductive Command where
  | mk (args : List String) (stdin_cmd : Option Command)
      (env_vars : List (String × String)) (executable : Option String)

/-- Token vector accessor. -/
def Command.args : Command → List String
  | .mk a _ _ _ => a

/-- Upstream pipe source accessor. -/
def Command.stdin_cmd : Command → Option Command
  | .mk _ s _ _ => s

/-- Environment overrides accessor. -/
def Command.env_vars : Command → List (String × String)
  | .mk _ _ e _ => e

/-- Resolved executable accessor. -/
def Command.executable : Command → Option String
  | .mk _ _ _ x => x

/-- Python dict update `{**d, k: v}`: if `k` is already a key its entry is
overwritten in place (insertion order kept), otherwise `(k, v)` is appended. -/
def dictUpdate (d : List (String × String)) (k v : String) : List (String × String) :=
  if d.any (fun p => p.1 == k) then d.map (fun p => if p.1 == k then (k, v) else p)
  else d ++ [(k, v)]

/-- Python dict merge `{**a, **b}`. -/
def dictMerge (a b : List (String × String)) : List (String × String) :=
  b.foldl (fun d p => dictUpdate d p.1 p.2) a

/-- `Command.__init__` from `tools/impl/common.py`.  The filesystem and the
executable search path are oracles: `fsExists t` is `Path(t).exists()` and
`which t` is `shutil.which(t)`.  A `ValueError` naming the first token is
raised — at construction — when the first token is neither an existing path
nor found on the search path.  `csv.Error` from tokenization is also
propagated. -/
def Command.make (fsExists : String → Bool) (which : String → Option String)
    (items : List Arg) (stdin_cmd : Option Command)
    (env_vars : List (String × String)) : Except String Command :=
  match parse_cmd items with
  | none => .error "csv.Error"
  | some args =>
    match args with
    | [] => .ok (.mk [] stdin_cmd env_vars none)
    | exe :: rest =>
      if fsExists exe then .ok (.mk (exe :: rest) stdin_cmd env_vars (some exe))
      else
        match which exe with
        | some p => .ok (.mk (exe :: rest) stdin_cmd env_vars (some p))
        | none => .error ("Required program \"" ++ exe ++ "\" cannot be found in PATH.")

/-- `Command.pipe` from `tools/impl/common.py`, branch where the single
argument is a `Command`: build `Command(stdin_cmd=self)`, then assign the
target's `args` and a copy of the receiver's `env_vars`.  The executable of
the fresh `Command()` is never assigned. -/
def Command.pipe (r t : Command) : Command :=
  .mk t.args (some r) r.env_vars none

/-- `Command.pipe` from `tools/impl/common.py`, branch where the arguments are
not a single `Command`: `Command(*args, stdin_cmd=self, env_vars=self.env_vars)`. -/
def Command.pipe_args (fsExists : String → Bool) (which : String → Option String)
    (r : Command) (items : List Arg) : Except String Command :=
  Command.make fsExists which items (some r) r.env_vars

/-- `Command.env` from `tools/impl/common.py`: build `Command()` (empty args,
no stdin_cmd, no executable), then assign the receiver's `args` and the merged
`env_vars`. -/
def Command.env (c : Command) (key value : String) : Command :=
  .mk c.args none (dictUpdate c.env_vars key value) none

/-- `Command.__call__` from `tools/impl/common.py`: build `Command()`, then
assign `args` extended with the parsed new arguments and the receiver's
`env_vars`. -/
def Command.call (c : Command) (items : List Arg) : Except String Command :=
  match parse_cmd items with
  | none => .error "csv.Error"
  | some ts => .ok (.mk (c.args ++ ts) none c.env_vars none)

/-- Effectful map over a list in the `Except` monad (first error wins),
written as an explicit recursion. -/
def exceptMapList (f : α → Except ε β) : List α → Except ε (List β)
  | [] => .ok []
  | x :: xs =>
    match f x with
    | .error e => .error e
    | .ok y =>
      match exceptMapList f xs with
      | .error e => .error e
      | .ok ys => .ok (y :: ys)

/-- Effectful map over a list in the `Option` monad, written as an explicit
recursion. -/
def optionMapList (f : α → Option β) : List α → Option (List β)
  | [] => some []
  | x :: xs =>
    match f x with
    | none => none
    | some y =>
      match optionMapList f xs with
      | none => none
      | some ys => some (y :: ys)

/-- `Command.foreach` from `tools/impl/common.py`: one curried command per
batch produced by `batched`. -/
def Command.foreach (c : Command) (arguments : List Arg) (batch_size : Nat) :
    Except String (List Command) :=
  match batched arguments batch_size with
  | .error e => .error e
  | .ok bs => exceptMapList (fun batch => c.call batch) bs

/-- `fmt_arg` inside `Command.__str__`: quote arguments containing whitespace
(`re.search(r"\s", arg)`). -/
def fmt_arg (a : String) : String :=
  if a.data.any pySpace then "\"" ++ a ++ "\"" else a

/-- `Command.__str__` from `tools/impl/common.py`. -/
def Command.toStr : Command → String
  | .mk args none _ _ => String.intercalate " " (args.map fmt_arg)
  | .mk args (some s) _ _ =>
    Command.toStr s ++ " | " ++ String.intercalate " " (args.map fmt_arg)

/-- Outcome of one spawned OS process: its exit code, and the captured output
streams (`none` when the corresponding stream was not captured). -/
structure RunResult where
  returncode : Int
  stdout : Option String
  stderr : Option String
deriving DecidableEq, Repr

/-- Oracle describing process execution: given the argument vector, the
merged environment, the upstream command whose stream feeds stdin, and
whether stdout is captured, it yields the process outcome. -/
def Runner : Type := List String → List (String × String) → Option Command → Bool → RunResult

/-- `subprocess.CalledProcessError` as raised by `Command.fg`
(`raise subprocess.CalledProcessError(result.returncode, str(self), result.stdout)`). -/
structure CalledProcessError where
  returncode : Int
  cmd : String
  output : Option String
deriving DecidableEq, Repr

/-- Truthiness of `result.stdout` in Python: a present, non-empty string. -/
def truthyOpt : Option String → Bool
  | none => false
  | some s => !(s == "")

/-- `Command.fg` from `tools/impl/common.py`.  Returns the lines printed by
`fg` itself (the captured output echoed on a quiet, checked failure) together
with either the raised `CalledProcessError` or the returned exit code.  When
`quiet` is set the process runs with `stdout=PIPE, stderr=STDOUT`; otherwise
nothing is captured and `result.stdout` is `None`. -/
def Command.fg (runner : Runner) (osEnv : List (String × String)) (c : Command)
    (quiet check : Bool) : List String × Except CalledProcessError Int :=
  let result := runner c.args (dictMerge osEnv c.env_vars) c.stdin_cmd quiet
  if result.returncode ≠ 0 then
    let printed := if quiet && check && truthyOpt result.stdout then [result.stdout.getD ""] else []
    if check then (printed, .error ⟨result.returncode, c.toStr, result.stdout⟩)
    else (printed, .ok result.returncode)
  else ([], .ok result.returncode)

/-- `CommandResult` from `tools/impl/common.py`: the snapshot returned by
`Command.run` — `stdout` is always captured (`stdout=PIPE`), `stderr` only
when requested. -/
structure CommandResult where
  stdout : String
  stderr : Option String
  returncode : Int
deriving DecidableEq, Repr

/-- `Command.run` from `tools/impl/common.py` (the `check` behaviour of
`subprocess.run`: a non-zero exit raises `CalledProcessError`). -/
def Command.runM (runner : Runner) (osEnv : List (String × String)) (c : Command)
    (check : Bool) : Except CalledProcessError CommandResult :=
  let result := runner c.args (dictMerge osEnv c.env_vars) c.stdin_cmd true
  if check && result.returncode ≠ 0 then
    .error ⟨result.returncode, c.toStr, result.stdout⟩
  else .ok ⟨result.stdout.getD "", result.stderr, result.returncode⟩

/-- `Command.stdout` from `tools/impl/common.py`: run and return the stripped
captured stdout. -/
def Command.stdoutRun (runner : Runner) (osEnv : List (String × String)) (c : Command)
    (check : Bool) : Except CalledProcessError String :=
  (Command.runM runner osEnv c check).map (fun r => pyStrip r.stdout)

/-- `multiprocessing.pool.ThreadPool.map` as used by `ParallelCommands`:
tasks are evaluated in an arbitrary completion order (`schedule`, a
permutation of the input indices), but each result is stored at its input
index and the results are returned in input order.  `none` can only arise if
`schedule` misses an input index. -/
def pool_map (f : Command → α) (commands : List Command) (schedule : List Nat) :
    Option (List α) :=
  let tbl := schedule.filterMap (fun j => (commands.get? j).map (fun c => (j, f c)))
  optionMapList (fun i => tbl.lookup i) (List.range commands.length)

/-- `ParallelCommands.fg` from `tools/impl/common.py`. -/
def ParallelCommands.fg (runner : Runner) (osEnv : List (String × String))
    (commands : List Command) (schedule : List Nat) (quiet check : Bool) :
    Option (List (Except CalledProcessError Int)) :=
  pool_map (fun c => (Command.fg runner osEnv c quiet check).2) commands schedule

/-- `ParallelCommands.stdout` from `tools/impl/common.py` (each task is
`command.stdout()`, with its default `check=True`). -/
def ParallelCommands.stdoutAll (runner : Runner) (osEnv : List (String × String))
    (commands : List Command) (schedule : List Nat) :
    Option (List (Except CalledProcessError String)) :=
  pool_map (fun c => Command.stdoutRun runner osEnv c true) commands schedule

/-- Key extraction in `jail/seccomp/detect_duplication.py`: a (stripped) line
that is not a comment (`l.startswith("#")`) and contains `':'` yields its
first whitespace-delimited token (`l.split()[0]`). -/
def keyOf (l : String) : Option String :=
  if !(l.data.take 1 == ['#']) && l.data.contains ':' then some ((pySplitWs l).headD "")
  else none

/-- The loop of `jail/seccomp/detect_duplication.py` over the (stripped)
lines, carrying `last_seen` and the current index.  Returns the lines printed
to stdout and, on a duplicate, the key with the current and the original
index (`sys.exit` fires before the offending line is printed). -/
def dd_go (seen : List (String × Nat)) (i : Nat) :
    List String → List String × Option (String × Nat × Nat)
  | [] => ([], none)
  | l :: rest =>
    match keyOf l with
    | some key =>
      match seen.lookup key with
      | some prev => ([], some (key, i, prev))
      | none =>
        let r := dd_go ((key, i) :: seen) (i + 1) rest
        (l :: r.1, r.2)
    | none =>
      let r := dd_go seen (i + 1) rest
      (l :: r.1, r.2)

/-- The message of `sys.exit("syscall %s redefined in L%d(previous definition
in L%d)" % ...)`. -/
def dd_message (key : String) (i prev : Nat) : String :=
  "syscall " ++ key ++ " redefined in L" ++ toString i ++
    "(previous definition in L" ++ toString prev ++ ")"

/-- `jail/seccomp/detect_duplication.py` as a whole: strip every input line,
run the loop; the result is the stdout lines, the exit code (`sys.exit(msg)`
exits with code 1) and the abort message, if any. -/
def detect_duplication (lines : List String) : List String × Int × Option String :=
  let r := dd_go [] 0 (lines.map pyStrip)
  match r.2 with
  | none => (r.1, 0, none)
  | some (k, i, p) => (r.1, 1, some (dd_message k i p))

/-! ### Arithmetic facts about ceiling division -/

theorem cdiv_le_iff (a b k : Nat) (hb : 0 < b) : cdiv a b ≤ k ↔ a ≤ k * b := by
  unfold cdiv
  rw [Nat.div_le_iff_le_mul_add_pred hb, Nat.mul_comm]
  generalize k * b = m
  omega

theorem lt_cdiv_iff (a b k : Nat) (hb : 0 < b) : k < cdiv a b ↔ k * b < a := by
  have h := cdiv_le_iff a b k hb
  omega

theorem le_cdiv_mul (a b : Nat) (hb : 0 < b) : a ≤ cdiv a b * b :=
  (cdiv_le_iff a b (cdiv a b) hb).mp le_rfl

theorem cdiv_zero_left (b : Nat) : cdiv 0 b = 0 := by
  cases b with
  | zero => rfl
  | succ n => exact Nat.div_eq_of_lt (by omega)

theorem cdiv_pos (a b : Nat) (hb : 0 < b) (ha : 0 < a) : 0 < cdiv a b := by
  have h := cdiv_le_iff a b 0 hb
  simp at h
  omega

theorem cdiv_pred_mul_lt (a b : Nat) (hb : 0 < b) (ha : 0 < a) : (cdiv a b - 1) * b < a := by
  have hpos := cdiv_pos a b hb ha
  have h := lt_cdiv_iff a b (cdiv a b - 1) hb
  omega

theorem cdiv_antitone (a b₁ b₂ : Nat) (h1 : 0 < b₁) (hle : b₁ ≤ b₂) :
    cdiv a b₂ ≤ cdiv a b₁ := by
  rw [cdiv_le_iff a b₂ _ (Nat.lt_of_lt_of_le h1 hle)]
  calc a ≤ cdiv a b₁ * b₁ := le_cdiv_mul a b₁ h1
    _ ≤ cdiv a b₁ * b₂ := Nat.mul_le_mul_left _ hle

theorem cdiv_cdiv_le (n bs : Nat) (hn : 0 < n) (hbs : 0 < bs) : cdiv n (cdiv n bs) ≤ bs := by
  rw [cdiv_le_iff n _ bs (cdiv_pos n bs hbs hn)]
  rw [Nat.mul_comm]
  exact le_cdiv_mul n bs hbs

theorem cdiv_count_eq (n bs : Nat) (hn : 0 < n) (hbs : 0 < bs) :
    cdiv n (cdiv n (cdiv n bs)) = cdiv n bs := by
  have hk : 0 < cdiv n bs := cdiv_pos n bs hbs hn
  have hb' : 0 < cdiv n (cdiv n bs) := cdiv_pos n _ hk hn
  apply Nat.le_antisymm
  · rw [cdiv_le_iff n _ _ hb']
    rw [Nat.mul_comm]
    exact le_cdiv_mul n (cdiv n bs) hk
  · exact Nat.le_trans (cdiv_antitone n _ bs hb' (cdiv_cdiv_le n bs hn hbs)) le_rfl

theorem cdiv_rec (n b : Nat) (hn : 0 < n) (hb : 0 < b) :
    cdiv n b = 1 + cdiv (n - b) b := by
  apply Nat.le_antisymm
  · rw [cdiv_le_iff n b _ hb, Nat.add_mul, Nat.one_mul]
    have h := le_cdiv_mul (n - b) b hb
    omega
  · have hpos := cdiv_pos n b hb hn
    have h1 : cdiv (n - b) b ≤ cdiv n b - 1 := by
      rw [cdiv_le_iff _ b _ hb, Nat.sub_mul, Nat.one_mul]
      have h := le_cdiv_mul n b hb
      omega
    omega

/-! ### Properties of the slicing loop -/

theorem pySlices_flatten : ∀ (l : List α) (s : Nat), 0 < s → (pySlices l s).flatten = l := by
  intro l s
  induction l, s using pySlices.induct with
  | case1 l => omega
  | case2 n => intro _; rw [pySlices]; rfl
  | case3 x xs s ih =>
    intro _
    rw [pySlices]
    simp only [List.flatten_cons]
    rw [ih (by omega)]
    exact List.take_append_drop ..

theorem pySlices_length : ∀ (l : List α) (s : Nat), 0 < s →
    (pySlices l s).length = cdiv l.length s := by
  intro l s
  induction l, s using pySlices.induct with
  | case1 l => omega
  | case2 n =>
    intro _
    rw [pySlices]
    simp [cdiv_zero_left]
  | case3 x xs s ih =>
    intro _
    rw [pySlices]
    simp only [List.length_cons, ih (by omega), List.length_drop, Nat.succ_eq_add_one]
    rw [cdiv_rec (xs.length + 1) (s + 1) (by omega) (by omega)]
    omega

theorem pySlices_mem : ∀ (l : List α) (s : Nat), 0 < s →
    ∀ b ∈ pySlices l s, b ≠ [] ∧ b.length ≤ s := by
  intro l s
  induction l, s using pySlices.induct with
  | case1 l => omega
  | case2 n => intro _ b hb; rw [pySlices] at hb; simp at hb
  | case3 x xs s ih =>
    intro _ b hb
    rw [pySlices] at hb
    rcases List.mem_cons.mp hb with h | h
    · subst h
      constructor
      · simp [List.take_cons]
      · simp [List.length_take]
    · exact ih (by omega) b h

theorem pySlices_get_full : ∀ (l : List α) (s : Nat), 0 < s →
    ∀ i (h : i + 1 < (pySlices l s).length),
      ((pySlices l s).get ⟨i, Nat.lt_of_succ_lt h⟩).length = s := by
  intro l s
  induction l, s using pySlices.induct with
  | case1 l => omega
  | case2 n => intro _ i h; rw [pySlices] at h; simp at h
  | case3 x xs s ih =>
    intro _ i h
    have heq : pySlices (x :: xs) (s + 1)
        = (x :: xs).take (s + 1) :: pySlices ((x :: xs).drop (s + 1)) (s + 1) := by
      rw [pySlices]
    rw [heq] at h
    rw [List.get_of_eq heq]
    match i with
    | 0 =>
      simp only [List.length_cons] at h
      have hrec : 0 < (pySlices ((x :: xs).drop (s + 1)) (s + 1)).length := by omega
      have hne : (x :: xs).drop (s + 1) ≠ [] := by
        intro hnil
        rw [hnil, pySlices] at hrec
        simp at hrec
      have hlen : s + 1 < xs.length + 1 := by
        by_contra hc
        push_neg at hc
        refine hne (List.drop_eq_nil_of_le ?_)
        simp only [List.length_cons]
        omega
      show ((x :: xs).take (s + 1)).length = s + 1
      simp only [List.length_take, List.length_cons]
      omega
    | Nat.succ j =>
      simp only [List.get_cons_succ]
      exact ih (by omega) j (by simpa using h)

/-! ### Helper lemmas for the effectful list maps -/

theorem parse_cmd_append (l₁ l₂ : List Arg) (r₁ r₂ : List String)
    (h₁ : parse_cmd l₁ = some r₁) (h₂ : parse_cmd l₂ = some r₂) :
    parse_cmd (l₁ ++ l₂) = some (r₁ ++ r₂) := by
  induction l₁ generalizing r₁ with
  | nil =>
    rw [parse_cmd] at h₁
    cases h₁
    simpa using h₂
  | cons a rest ih =>
    rw [parse_cmd] at h₁
    cases hpa : parse_cmd_args a with
    | none => rw [hpa] at h₁; cases h₁
    | some ts =>
      rw [hpa] at h₁
      cases hpr : parse_cmd rest with
      | none => rw [hpr] at h₁; cases h₁
      | some rs =>
        rw [hpr] at h₁
        cases h₁
        show parse_cmd (a :: (rest ++ l₂)) = _
        rw [parse_cmd, hpa, ih rs hpr]
        simp

theorem optionMapList_total {α β : Type} (f : α → Option β) :
    ∀ (l : List α), (∀ x ∈ l, (f x).isSome) →
      ∃ r, optionMapList f l = some r ∧ r.length = l.length ∧
        ∀ i (hi : i < l.length) (hr : i < r.length),
          f (l.get ⟨i, hi⟩) = some (r.get ⟨i, hr⟩) := by
  intro l
  induction l with
  | nil =>
    intro _
    refine ⟨[], rfl, rfl, ?_⟩
    intro i hi hr
    simp at hi
  | cons x xs ih =>
    intro h
    obtain ⟨y, hy⟩ := Option.isSome_iff_exists.mp (h x (by simp))
    obtain ⟨r, hr, hlen, hget⟩ := ih (fun a ha => h a (by simp [ha]))
    refine ⟨y :: r, ?_, by simp [hlen], ?_⟩
    · rw [optionMapList, hy, hr]
    · intro i hi hri
      match i with
      | 0 => simpa using hy
      | j + 1 => simpa using hget j (by simpa using hi) (by simpa using hri)

theorem exceptMapList_total {ε α β : Type} (f : α → Except ε β) :
    ∀ (l : List α), (∀ x ∈ l, ∃ y, f x = .ok y) →
      ∃ r, exceptMapList f l = .ok r ∧ r.length = l.length ∧
        ∀ i (hi : i < l.length) (hr : i < r.length),
          f (l.get ⟨i, hi⟩) = .ok (r.get ⟨i, hr⟩) := by
  intro l
  induction l with
  | nil =>
    intro _
    refine ⟨[], rfl, rfl, ?_⟩
    intro i hi hr
    simp at hi
  | cons x xs ih =>
    intro h
    obtain ⟨y, hy⟩ := h x (by simp)
    obtain ⟨r, hr, hlen, hget⟩ := ih (fun a ha => h a (by simp [ha]))
    refine ⟨y :: r, ?_, by simp [hlen], ?_⟩
    · rw [exceptMapList, hy, hr]
    · intro i hi hri
      match i with
      | 0 => simpa using hy
      | j + 1 => simpa using hget j (by simpa using hi) (by simpa using hri)

/-! ### Python dict semantics -/

theorem lookup_cons {α β : Type} [BEq α] [LawfulBEq α] [DecidableEq α] (k : α) (p : α × β) (d : List (α × β)) :
    (p :: d).lookup k = if k = p.1 then some p.2 else d.lookup k := by
  simp only [List.lookup]
  by_cases h : k = p.1
  · rw [if_pos h]
    have hb : (k == p.1) = true := by simpa using h
    rw [hb]
  · rw [if_neg h]
    have hb : (k == p.1) = false := by simpa using h
    rw [hb]

theorem lookup_map_subst_self (d : List (String × String)) (key value : String)
    (h : d.any (fun p => p.1 == key) = true) :
    (d.map (fun p => if p.1 == key then (key, value) else p)).lookup key = some value := by
  induction d with
  | nil => simp at h
  | cons p d ih =>
    by_cases hp : p.1 = key
    · simp only [List.map_cons]
      rw [if_pos (by simpa using hp)]
      rw [lookup_cons]
      simp
    · have h' : d.any (fun q => q.1 == key) = true := by
        simp only [List.any_cons, Bool.or_eq_true] at h
        rcases h with h | h
        · exact absurd (by simpa using h) hp
        · exact h
      simp only [List.map_cons]
      rw [if_neg (by simpa using hp)]
      rw [lookup_cons]
      rw [if_neg (fun hc => hp hc.symm)]
      exact ih h'

theorem lookup_map_subst_other (d : List (String × String)) (k key value : String)
    (hk : k ≠ key) :
    (d.map (fun p => if p.1 == key then (key, value) else p)).lookup k = d.lookup k := by
  induction d with
  | nil => simp
  | cons p d ih =>
    by_cases hp : p.1 = key
    · simp only [List.map_cons]
      rw [if_pos (by simpa using hp)]
      rw [lookup_cons, lookup_cons]
      rw [if_neg (by simpa using hk)]
      rw [if_neg (fun hc => hk (hc.trans hp))]
      exact ih
    · simp only [List.map_cons]
      rw [if_neg (by simpa using hp)]
      rw [lookup_cons, lookup_cons]
      by_cases hkp : k = p.1
      · rw [if_pos hkp, if_pos hkp]
      · rw [if_neg hkp, if_neg hkp]
        exact ih

theorem lookup_append_self (d : List (String × String)) (key value : String)
    (h : d.any (fun p => p.1 == key) = false) :
    (d ++ [(key, value)]).lookup key = some value := by
  induction d with
  | nil =>
    rw [List.nil_append, lookup_cons]
    simp
  | cons p d ih =>
    simp only [List.any_cons, Bool.or_eq_false_iff] at h
    rw [List.cons_append, lookup_cons]
    rw [if_neg ?_]
    · exact ih h.2
    · intro hc
      have := h.1
      rw [hc] at this
      simp at this

theorem lookup_append_other (d : List (String × String)) (k key value : String)
    (hk : k ≠ key) :
    (d ++ [(key, value)]).lookup k = d.lookup k := by
  induction d with
  | nil =>
    rw [List.nil_append, lookup_cons]
    rw [if_neg hk]
  | cons p d ih =>
    rw [List.cons_append, lookup_cons, lookup_cons]
    by_cases hkp : k = p.1
    · rw [if_pos hkp, if_pos hkp]
    · rw [if_neg hkp, if_neg hkp]
      exact ih

theorem lookup_dictUpdate (d : List (String × String)) (k key value : String) :
    (dictUpdate d key value).lookup k = if k = key then some value else d.lookup k := by
  unfold dictUpdate
  by_cases hany : d.any (fun p => p.1 == key) = true
  · rw [if_pos hany]
    by_cases hk : k = key
    · subst hk
      rw [if_pos rfl]
      exact lookup_map_subst_self d k value hany
    · rw [if_neg hk]
      exact lookup_map_subst_other d k key value hk
  · rw [if_neg hany]
    by_cases hk : k = key
    · subst hk
      rw [if_pos rfl]
      exact lookup_append_self d k value (by simp only [Bool.not_eq_true] at hany; exact hany)
    · rw [if_neg hk]
      exact lookup_append_other d k key value hk

/-! ### Correctness of the csv splitter on wellformed word sequences -/

theorem string_mk_data (s : String) : String.mk s.data = s := by
  obtain ⟨d⟩ := s
  rfl

theorem plainCharOK_spec (c : Char) (h : plainCharOK c = true) :
    ¬(c = '\n') ∧ ¬(c = '\r') ∧ ¬(c = '"') ∧ ¬(c = ' ') := by
  simp [plainCharOK] at h
  tauto

theorem quotedCharOK_spec (c : Char) (h : quotedCharOK c = true) : ¬(c = '"') := by
  simp [quotedCharOK] at h
  tauto

theorem sepOKb_spec (c : Char) (h : sepOKb c = true) : c = ' ' ∨ c = '\n' := by
  simpa [sepOKb] using h

theorem csvRun_inField_chars : ∀ (d : List Char), d.all plainCharOK = true →
    ∀ (cur : List Char) (fields : List String) (rest : List Char),
      csvRun .inField cur fields (d ++ rest) = csvRun .inField (cur ++ d) fields rest := by
  intro d
  induction d with
  | nil => intro _ cur fields rest; simp
  | cons c d ih =>
    intro h cur fields rest
    simp only [List.all_cons, Bool.and_eq_true] at h
    obtain ⟨hc, hd⟩ := h
    obtain ⟨h1, h2, _, h4⟩ := plainCharOK_spec c hc
    show csvRun .inField cur fields (c :: (d ++ rest)) = _
    rw [csvRun]
    simp only [csvStep, if_neg h1, if_neg h2, if_neg h4]
    rw [ih hd (cur ++ [c]) fields rest]
    simp

theorem csvRun_inQuoted_chars : ∀ (d : List Char), d.all quotedCharOK = true →
    ∀ (cur : List Char) (fields : List String) (rest : List Char),
      csvRun .inQuoted cur fields (d ++ rest) = csvRun .inQuoted (cur ++ d) fields rest := by
  intro d
  induction d with
  | nil => intro _ cur fields rest; simp
  | cons c d ih =>
    intro h cur fields rest
    simp only [List.all_cons, Bool.and_eq_true] at h
    obtain ⟨hc, hd⟩ := h
    have h3 := quotedCharOK_spec c hc
    show csvRun .inQuoted cur fields (c :: (d ++ rest)) = _
    rw [csvRun]
    simp only [csvStep, if_neg h3]
    rw [ih hd (cur ++ [c]) fields rest]
    simp

theorem quoted_render_data (s : String) :
    (SWord.quotedW s).render.data = '"' :: (s.data ++ ['"']) := by
  show ("\"" ++ s ++ "\"").data = _
  rw [String.data_append, String.data_append]
  rfl

theorem csvRun_word (w : SWord) (hw : w.wfb = true) (st : SplitState)
    (hst : st = SplitState.startRecord ∨ st = SplitState.startField)
    (fields : List String) (rest : List Char) :
    ∃ st' : SplitState,
      csvRun st [] fields (w.render.data ++ rest) = csvRun st' w.content.data fields rest ∧
      (st' = SplitState.inField ∨ st' = SplitState.quoteInQuoted) := by
  cases w with
  | plain s =>
    simp only [SWord.wfb, Bool.and_eq_true] at hw
    obtain ⟨hne, hall⟩ := hw
    have hne' : s.data ≠ [] := by
      intro hnil
      apply (by simpa using hne : ¬(s = ""))
      have := string_mk_data s
      rw [hnil] at this
      exact this.symm
    refine ⟨.inField, ?_, Or.inl rfl⟩
    show csvRun st [] fields (s.data ++ rest) = csvRun .inField s.data fields rest
    cases hd : s.data with
    | nil => exact absurd hd hne'
    | cons c d =>
      rw [hd] at hall
      simp only [List.all_cons, Bool.and_eq_true] at hall
      obtain ⟨hc, hdall⟩ := hall
      obtain ⟨h1, h2, h3, h4⟩ := plainCharOK_spec c hc
      show csvRun st [] fields (c :: (d ++ rest)) = _
      rcases hst with hst | hst <;> subst hst <;>
        (rw [csvRun]
         simp only [csvStep, if_neg h1, if_neg h2, if_neg h3, if_neg h4]
         simp only [List.nil_append]
         rw [csvRun_inField_chars d hdall [c] fields rest]
         simp)
  | quotedW s =>
    simp only [SWord.wfb] at hw
    refine ⟨.quoteInQuoted, ?_, Or.inr rfl⟩
    rw [quoted_render_data]
    show csvRun st [] fields ('"' :: ((s.data ++ ['"']) ++ rest)) =
      csvRun .quoteInQuoted s.data fields rest
    have hstep : ∀ cur, csvStep st cur fields '"' = some (.inQuoted, cur, fields) := by
      intro cur
      rcases hst with hst | hst <;> subst hst <;> simp [csvStep]
    rw [csvRun, hstep]
    show csvRun .inQuoted [] fields ((s.data ++ ['"']) ++ rest) = _
    rw [List.append_assoc]
    rw [csvRun_inQuoted_chars s.data hw [] fields (['"'] ++ rest)]
    show csvRun .inQuoted s.data fields ('"' :: rest) = _
    rw [csvRun]
    simp [csvStep]

theorem chunksData_cons (ch : Chunk) (rest : List Chunk) :
    chunksData (ch :: rest) = ch.render.data ++ chunksData rest := by
  simp [chunksData]

theorem csvRun_chunks : ∀ (cs : List Chunk), chunksWFb cs = true →
    ∀ (st : SplitState), (st = SplitState.startRecord ∨ st = SplitState.startField) →
    ∀ (fields : List String),
      ∃ res, csvRun st [] fields (chunksData cs) = some res ∧
        res.filter (fun a => a ≠ "") = fields.filter (fun a => a ≠ "") ++ chunksTokens cs := by
  intro cs
  induction cs using chunksWFb.induct with
  | case1 =>
    intro _ st hst fields
    rcases hst with hst | hst <;> subst hst
    · exact ⟨fields, rfl, by simp [chunksTokens]⟩
    · refine ⟨fields ++ [""], rfl, ?_⟩
      simp [chunksTokens, List.filter_append]
  | case2 c rest ih =>
    intro hwf st hst fields
    simp only [chunksWFb, Bool.and_eq_true] at hwf
    obtain ⟨hsep, hrest⟩ := hwf
    rcases sepOKb_spec c hsep with hc | hc <;> subst hc <;> rcases hst with hst | hst <;> subst hst
    · obtain ⟨res, h1, h2⟩ := ih hrest .startField (Or.inr rfl) (fields ++ [""])
      refine ⟨res, ?_, ?_⟩
      · rw [chunksData_cons]
        show csvRun .startRecord [] fields (' ' :: chunksData rest) = some res
        rw [csvRun]
        simp only [csvStep]
        norm_num
        exact h1
      · rw [h2]
        simp [chunksTokens, List.filter_append]
    · obtain ⟨res, h1, h2⟩ := ih hrest .startField (Or.inr rfl) (fields ++ [""])
      refine ⟨res, ?_, ?_⟩
      · rw [chunksData_cons]
        show csvRun .startField [] fields (' ' :: chunksData rest) = some res
        rw [csvRun]
        simp only [csvStep]
        norm_num
        exact h1
      · rw [h2]
        simp [chunksTokens, List.filter_append]
    · obtain ⟨res, h1, h2⟩ := ih hrest .startRecord (Or.inl rfl) fields
      refine ⟨res, ?_, ?_⟩
      · rw [chunksData_cons]
        show csvRun .startRecord [] fields ('\n' :: chunksData rest) = some res
        rw [csvRun]
        simp only [csvStep]
        norm_num
        exact h1
      · rw [h2]
        simp [chunksTokens]
    · obtain ⟨res, h1, h2⟩ := ih hrest .startRecord (Or.inl rfl) (fields ++ [""])
      refine ⟨res, ?_, ?_⟩
      · rw [chunksData_cons]
        show csvRun .startField [] fields ('\n' :: chunksData rest) = some res
        rw [csvRun]
        simp only [csvStep]
        norm_num
        exact h1
      · rw [h2]
        simp [chunksTokens, List.filter_append]
  | case3 w =>
    intro hwf st hst fields
    have hw : w.wfb = true := by simpa [chunksWFb] using hwf
    obtain ⟨st', hrun, hst'⟩ := csvRun_word w hw st hst fields []
    refine ⟨fields ++ [String.mk w.content.data], ?_, ?_⟩
    · rw [show chunksData [Chunk.word w] = w.render.data ++ [] from by
        simp [chunksData, Chunk.render]]
      rw [hrun]
      rcases hst' with h | h <;> subst h <;> rfl
    · rw [string_mk_data, List.filter_append]
      by_cases hc : w.content = ""
      · simp [hc, chunksTokens]
      · simp [hc, chunksTokens]
  | case4 w w' rest =>
    intro hwf
    simp [chunksWFb] at hwf
  | case5 w c rest ih =>
    intro hwf st hst fields
    simp only [chunksWFb, Bool.and_eq_true] at hwf
    obtain ⟨hw, hsep, hrest⟩ := hwf
    obtain ⟨st', hrun, hst'⟩ := csvRun_word w hw st hst fields (c :: chunksData rest)
    have hdata : chunksData (Chunk.word w :: Chunk.sep c :: rest)
        = w.render.data ++ (c :: chunksData rest) := by
      simp [chunksData, Chunk.render, String.singleton]
    rcases sepOKb_spec c hsep with hc | hc <;> subst hc
    · have hstep : csvStep st' w.content.data fields ' '
          = some (.startField, [], fields ++ [String.mk w.content.data]) := by
        rcases hst' with h | h <;> subst h <;> simp [csvStep]
      obtain ⟨res, h1, h2⟩ := ih hrest .startField (Or.inr rfl)
        (fields ++ [String.mk w.content.data])
      refine ⟨res, ?_, ?_⟩
      · rw [hdata, hrun, csvRun, hstep]
        exact h1
      · rw [h2, string_mk_data, List.filter_append]
        by_cases hcw : w.content = ""
        · simp [hcw, chunksTokens, List.append_assoc]
        · simp [hcw, chunksTokens, List.append_assoc]
    · have hstep : csvStep st' w.content.data fields '\n'
          = some (.startRecord, [], fields ++ [String.mk w.content.data]) := by
        rcases hst' with h | h <;> subst h <;> simp [csvStep]
      obtain ⟨res, h1, h2⟩ := ih hrest .startRecord (Or.inl rfl)
        (fields ++ [String.mk w.content.data])
      refine ⟨res, ?_, ?_⟩
      · rw [hdata, hrun, csvRun, hstep]
        exact h1
      · rw [h2, string_mk_data, List.filter_append]
        by_cases hcw : w.content = ""
        · simp [hcw, chunksTokens, List.append_assoc]
        · simp [hcw, chunksTokens, List.append_assoc]

/-! ### Behaviour of the duplicate-definition filter loop -/

theorem dd_go_nodup : ∀ (ls : List String) (seen : List (String × Nat)) (i : Nat),
    List.Pairwise (fun x y => ∀ k, keyOf x = some k → keyOf y ≠ some k) ls →
    (∀ l ∈ ls, ∀ k, keyOf l = some k → seen.lookup k = none) →
    dd_go seen i ls = (ls, none) := by
  intro ls
  induction ls with
  | nil => intro seen i _ _; rfl
  | cons l rest ih =>
    intro seen i hpw hseen
    rw [List.pairwise_cons] at hpw
    obtain ⟨hhead, htail⟩ := hpw
    cases hk : keyOf l with
    | none =>
      simp only [dd_go, hk]
      rw [ih seen (i + 1) htail (fun l' hl' k hk' => hseen l' (by simp [hl']) k hk')]
    | some key =>
      have hlook := hseen l (by simp) key hk
      simp only [dd_go, hk, hlook]
      rw [ih ((key, i) :: seen) (i + 1) htail ?_]
      · intro l' hl' k hk'
        rw [lookup_cons]
        rw [if_neg ?_]
        · exact hseen l' (by simp [hl']) k hk'
        · intro hkk
          have hkk2 : k = key := hkk
          exact hhead l' hl' key hk (by rw [← hkk2]; exact hk')

theorem dd_go_abort_seen : ∀ (ls : List String) (seen : List (String × Nat)) (i : Nat)
    (l : String) (post : List String) (k : String) (v : Nat),
    List.Pairwise (fun x y => ∀ k', keyOf x = some k' → keyOf y ≠ some k') ls →
    (∀ x ∈ ls, ∀ k', keyOf x = some k' → seen.lookup k' = none) →
    keyOf l = some k →
    seen.lookup k = some v →
    (∀ x ∈ ls, keyOf x ≠ some k) →
    dd_go seen i (ls ++ l :: post) = (ls, some (k, i + ls.length, v)) := by
  intro ls
  induction ls with
  | nil =>
    intro seen i l post k v _ _ hkl hlk _
    rw [List.nil_append]
    simp only [dd_go, hkl, hlk]
    simp
  | cons x rest ih =>
    intro seen i l post k v hpw hseen hkl hlk hknot
    rw [List.pairwise_cons] at hpw
    obtain ⟨hhead, htail⟩ := hpw
    rw [List.cons_append]
    cases hk : keyOf x with
    | none =>
      simp only [dd_go, hk]
      rw [ih seen (i + 1) l post k v htail
        (fun x' hx' k' hk' => hseen x' (by simp [hx']) k' hk') hkl hlk
        (fun x' hx' => hknot x' (by simp [hx']))]
      simp only [List.length_cons]
      rw [show i + 1 + rest.length = i + (rest.length + 1) from by omega]
    | some kx =>
      have hlook := hseen x (by simp) kx hk
      simp only [dd_go, hk, hlook]
      rw [ih ((kx, i) :: seen) (i + 1) l post k v htail ?seenOK hkl ?lkOK
        (fun x' hx' => hknot x' (by simp [hx']))]
      case seenOK =>
        intro x' hx' k' hk'
        rw [lookup_cons]
        rw [if_neg ?_]
        · exact hseen x' (by simp [hx']) k' hk'
        · intro hkk
          have hkk2 : k' = kx := hkk
          exact hhead x' hx' kx hk (by rw [← hkk2]; exact hk')
      case lkOK =>
        rw [lookup_cons]
        rw [if_neg ?_]
        · exact hlk
        · intro hkk
          have hkk2 : k = kx := hkk
          exact hknot x (by simp) (by rw [hkk2]; exact hk)
      simp only [List.length_cons]
      rw [show i + 1 + rest.length = i + (rest.length + 1) from by omega]

theorem dd_go_main_abort : ∀ (pre1 : List String) (p : String) (pre2 : List String)
    (l : String) (post : List String) (k : String) (seen : List (String × Nat)) (i : Nat),
    List.Pairwise (fun x y => ∀ k', keyOf x = some k' → keyOf y ≠ some k') (pre1 ++ p :: pre2) →
    (∀ x ∈ pre1 ++ p :: pre2, ∀ k', keyOf x = some k' → seen.lookup k' = none) →
    keyOf p = some k → keyOf l = some k →
    (∀ q ∈ pre1, keyOf q ≠ some k) →
    dd_go seen i ((pre1 ++ p :: pre2) ++ l :: post) =
      (pre1 ++ p :: pre2, some (k, i + (pre1 ++ p :: pre2).length, i + pre1.length)) := by
  intro pre1
  induction pre1 with
  | nil =>
    intro p pre2 l post k seen i hpw hseen hkp hkl _
    rw [List.nil_append] at hpw hseen ⊢
    rw [List.pairwise_cons] at hpw
    obtain ⟨hhead, htail⟩ := hpw
    have hlook := hseen p (by simp) k hkp
    rw [List.cons_append]
    simp only [dd_go, hkp, hlook]
    rw [dd_go_abort_seen pre2 ((k, i) :: seen) (i + 1) l post k i htail ?seenOK hkl ?lkOK ?notK]
    case seenOK =>
      intro x hx k' hk'
      rw [lookup_cons]
      rw [if_neg ?_]
      · exact hseen x (by simp [hx]) k' hk'
      · intro hkk
        have hkk2 : k' = k := hkk
        exact hhead x hx k hkp (by rw [← hkk2]; exact hk')
    case lkOK =>
      rw [lookup_cons]
      rw [if_pos rfl]
    case notK =>
      intro x hx
      exact hhead x hx k hkp
    simp only [List.length_cons]
    rw [show i + 1 + pre2.length = i + (pre2.length + 1) from by omega]
    simp
  | cons x pre1' ih =>
    intro p pre2 l post k seen i hpw hseen hkp hkl hknot
    rw [List.cons_append] at hpw hseen ⊢
    rw [List.pairwise_cons] at hpw
    obtain ⟨hhead, htail⟩ := hpw
    rw [List.cons_append]
    cases hk : keyOf x with
    | none =>
      simp only [dd_go, hk]
      rw [ih p pre2 l post k seen (i + 1) htail
        (fun x' hx' k' hk' => hseen x' (by simp [hx']) k' hk') hkp hkl
        (fun q hq => hknot q (by simp [hq]))]
      simp only [List.length_cons]
      rw [show i + 1 + (pre1' ++ p :: pre2).length = i + ((pre1' ++ p :: pre2).length + 1)
        from by omega]
      rw [show i + 1 + pre1'.length = i + (pre1'.length + 1) from by omega]
    | some kx =>
      have hlook := hseen x (by simp) kx hk
      simp only [dd_go, hk, hlook]
      rw [ih p pre2 l post k ((kx, i) :: seen) (i + 1) htail ?seenOK hkp hkl
        (fun q hq => hknot q (by simp [hq]))]
      case seenOK =>
        intro x' hx' k' hk'
        rw [lookup_cons]
        rw [if_neg ?_]
        · exact hseen x' (by simp [hx']) k' hk'
        · intro hkk
          have hkk2 : k' = kx := hkk
          exact hhead x' hx' kx hk (by rw [← hkk2]; exact hk')
      simp only [List.length_cons]
      rw [show i + 1 + (pre1' ++ p :: pre2).length = i + ((pre1' ++ p :: pre2).length + 1)
        from by omega]
      rw [show i + 1 + pre1'.length = i + (pre1'.length + 1) from by omega]

/-! ### Order preservation of the worker-pool map -/

theorem pool_tbl_lookup {α : Type} : ∀ (schedule : List Nat) (commands : List Command)
    (f : Command → α) (i : Nat), i ∈ schedule → ∀ c, commands.get? i = some c →
    (schedule.filterMap (fun j => (commands.get? j).map (fun c => (j, f c)))).lookup i
      = some (f c) := by
  intro schedule
  induction schedule with
  | nil => intro commands f i hi; simp at hi
  | cons j rest ih =>
    intro commands f i hi c hc
    rw [List.filterMap_cons]
    cases hgj : commands.get? j with
    | none =>
      rcases List.mem_cons.mp hi with hij | hir
      · rw [hij] at hc; rw [hc] at hgj; cases hgj
      · simpa using ih commands f i hir c hc
    | some cj =>
      simp only [Option.map_some']
      rw [lookup_cons]
      by_cases hij : i = j
      · rw [if_pos hij]
        rw [hij] at hc
        rw [hc] at hgj
        cases hgj
        rfl
      · rw [if_neg hij]
        rcases List.mem_cons.mp hi with h | h
        · exact absurd h hij
        · exact ih commands f i h c hc

theorem pool_map_eq {α : Type} (f : Command → α) (commands : List Command)
    (schedule : List Nat) (hs : ∀ i, i < commands.length → i ∈ schedule) :
    pool_map f commands schedule = some (commands.map f) := by
  have htot : ∀ i ∈ List.range commands.length,
      ((schedule.filterMap
          (fun j => (commands.get? j).map (fun c => (j, f c)))).lookup i).isSome := by
    intro i hi
    have hlt : i < commands.length := List.mem_range.mp hi
    rw [pool_tbl_lookup schedule commands f i (hs i hlt)
      (commands.get ⟨i, hlt⟩) (List.get?_eq_get hlt)]
    rfl
  obtain ⟨r, hr, hlen, hget⟩ := optionMapList_total _ (List.range commands.length) htot
  simp only [pool_map]
  rw [hr]
  congr 1
  apply List.ext_get
  · rw [hlen, List.length_range, List.length_map]
  · intro i h1 h2
    have hlt : i < commands.length := by
      rw [hlen, List.length_range] at h1
      exact h1
    have hi : i < (List.range commands.length).length := by
      rw [List.length_range]
      exact hlt
    have hv := hget i hi h1
    have hgr : (List.range commands.length).get ⟨i, hi⟩ = i := by simp
    rw [hgr] at hv
    rw [pool_tbl_lookup schedule commands f i (hs i hlt)
      (commands.get ⟨i, hlt⟩) (List.get?_eq_get hlt)] at hv
    have hr' : r.get ⟨i, h1⟩ = f (commands.get ⟨i, hlt⟩) := by
      injection hv with h
      exact h.symm
    rw [hr']
    simp [List.getElem_map]

/-! ### Batched construction lemma -/

theorem batched_ok {α : Type} (l : List α) (bs : Nat) (hne : l ≠ []) (hbs : 1 ≤ bs) :
    batched l bs = .ok (pySlices l (cdiv l.length (cdiv l.length bs))) := by
  have hn : 0 < l.length := List.length_pos.mpr hne
  unfold batched
  rw [if_neg (by omega)]
  simp only []
  rw [if_neg ?_]
  intro hzero
  have := cdiv_pos l.length bs (by omega) hn
  omega

/-! ### Claims -/

/-- Claim C1, corrected.  The claim asserts that non-path, non-Quoted
arguments are split on runs of *whitespace*; the code splits with the csv
reader on the space delimiter (and on line breaks), so a tab does not
separate tokens: `tokenize(["a\tb"])` is `["a\tb"]`, while splitting on
whitespace (Python's `str.split()`, here `pySplitWs`) would give
`["a", "b"]`. -/
theorem c1_tokenize_counterexample :
    parse_cmd [Arg.other "a\tb"] = some ["a\tb"] ∧
    pySplitWs "a\tb" = ["a", "b"] ∧
    (["a\tb"] : List String) ≠ ["a", "b"] := by
  refine ⟨rfl, rfl, by decide⟩

/-- Claim C1 (amended): tokenization processes items left to right and
concatenates their token lists; a path-like value contributes exactly one
token (its literal text, never split); a Quoted value contributes exactly one
token (its wrapped text); a null/false sentinel contributes zero tokens; any
other non-Command value is stringified and split shell-style, where runs of
*spaces and line breaks* (not other whitespace such as tab) separate tokens,
a double-quoted span becomes one token with the quotes stripped, and empty
fragments are dropped, so no token produced by the splitting is the empty
string. -/
theorem c1_tokenize_amended :
    (∀ (l₁ l₂ : List Arg) (r₁ r₂ : List String), parse_cmd l₁ = some r₁ →
      parse_cmd l₂ = some r₂ → parse_cmd (l₁ ++ l₂) = some (r₁ ++ r₂)) ∧
    (∀ s, parse_cmd_args (Arg.path s) = some [s]) ∧
    (∀ s, parse_cmd_args (Arg.quotedString s) = some [s]) ∧
    parse_cmd_args Arg.noneFalse = some [] ∧
    (∀ cs, chunksWFb cs = true →
      parse_cmd_args (Arg.other (chunksRender cs)) = some (chunksTokens cs)) ∧
    (∀ s r, shell_like_split s = some r → "" ∉ r) := by
  refine ⟨parse_cmd_append, fun s => rfl, fun s => rfl, rfl, ?_, ?_⟩
  · intro cs hwf
    obtain ⟨res, h1, h2⟩ := csvRun_chunks cs hwf .startRecord (Or.inl rfl) []
    show shell_like_split (chunksRender cs) = some (chunksTokens cs)
    unfold shell_like_split
    rw [show (chunksRender cs).data = chunksData cs from rfl]
    rw [h1]
    simp only [Option.map_some']
    rw [h2]
    simp
  · intro s r h hmem
    unfold shell_like_split at h
    cases hc : csvRun .startRecord [] [] s.data with
    | none => rw [hc] at h; cases h
    | some fields =>
      rw [hc] at h
      simp only [Option.map_some'] at h
      cases h
      have := List.of_mem_filter hmem
      simp at this

/-- Claim C1 witness: a concrete tokenization combining a path, the sentinel
and a raw string in which a tab stays inside a token, a quoted span with a
space becomes one token, and an empty quoted span is dropped. -/
theorem c1_tokenize_witness :
    parse_cmd ([Arg.path "/bin/ls", Arg.noneFalse] ++ [Arg.other "a\tb  \"x y\"\n\"\""]) =
      some (["/bin/ls"] ++ ["a\tb", "x y"]) := by
  refine c1_tokenize_amended.1 _ _ _ _ rfl ?_
  have h := c1_tokenize_amended.2.2.2.2.1
    [Chunk.word (.plain "a\tb"), .sep ' ', .sep ' ',
     .word (.quotedW "x y"), .sep '\n', .word (.quotedW "")] rfl
  exact h

/-- Claim C2: with a non-empty token vector, `Command.__init__` resolves the
executable at construction time: an existing filesystem entry is used
verbatim; otherwise a search-path hit is used; otherwise construction itself
fails with the `ValueError` naming the first token (the spec's
`ProgramNotFound`).  Execution functions (`Command.fg`, `Command.runM`) never
re-resolve: they only read the already-stored fields. -/
theorem c2_make_resolution (fsExists : String → Bool) (which : String → Option String)
    (items : List Arg) (stdin : Option Command) (env : List (String × String))
    (exe : String) (rest : List String)
    (h : parse_cmd items = some (exe :: rest)) :
    (fsExists exe = true →
      Command.make fsExists which items stdin env
        = .ok (.mk (exe :: rest) stdin env (some exe))) ∧
    (∀ p, fsExists exe = false → which exe = some p →
      Command.make fsExists which items stdin env
        = .ok (.mk (exe :: rest) stdin env (some p))) ∧
    (fsExists exe = false → which exe = none →
      Command.make fsExists which items stdin env
        = .error ("Required program \"" ++ exe ++ "\" cannot be found in PATH.")) := by
  unfold Command.make
  rw [h]
  refine ⟨?_, ?_, ?_⟩
  · intro hfs
    simp [hfs]
  · intro p hfs hw
    simp [hfs, hw]
  · intro hfs hw
    simp [hfs, hw]

/-- Claim C2 witness: a first token that neither exists on the filesystem nor
resolves on the search path makes construction fail with the error naming it. -/
theorem c2_make_witness :
    Command.make (fun _ => false) (fun _ => none) [Arg.other "prog --flag"] none []
      = .error ("Required program \"prog\" cannot be found in PATH.") :=
  (c2_make_resolution (fun _ => false) (fun _ => none) [Arg.other "prog --flag"] none []
    "prog" ["--flag"] rfl).2.2 rfl rfl

theorem parse_cmd_total : ∀ (items : List Arg),
    (∀ a ∈ items, ∃ ts, parse_cmd_args a = some ts) →
    ∃ ts, parse_cmd items = some ts := by
  intro items
  induction items with
  | nil => intro _; exact ⟨[], rfl⟩
  | cons a rest ih =>
    intro h
    obtain ⟨ts, hts⟩ := h a (by simp)
    obtain ⟨rs, hrs⟩ := ih (fun a' ha' => h a' (by simp [ha']))
    exact ⟨ts ++ rs, by simp only [parse_cmd, hts, hrs]⟩

/-- Claim C3: for a non-empty input and `batchSize ≥ 1`, `batched` partitions
the input into contiguous slices: the concatenation of the batches is the
input, the batch count is `ceil(n / batchSize)` (which is minimal among all
partitions into pieces of size at most `batchSize`), every batch is non-empty
of size at most `batchSize`, and all batches except possibly the last have
the same size `ceil(n / ceil(n / batchSize))`; `foreach` yields one curried
command per batch, the batch appended to the base command's tokens. -/
theorem c3_batched_partition :
    (∀ (α : Type) (l : List α) (bs : Nat), l ≠ [] → 1 ≤ bs →
      ∃ batches, batched l bs = .ok batches ∧
        batches.flatten = l ∧
        batches.length = cdiv l.length bs ∧
        (∀ b ∈ batches, b ≠ [] ∧ b.length ≤ bs) ∧
        (∀ i (h : i + 1 < batches.length),
          (batches.get ⟨i, Nat.lt_of_succ_lt h⟩).length
            = cdiv l.length (cdiv l.length bs)) ∧
        (∀ parts : List (List α), parts.flatten = l → (∀ p ∈ parts, p.length ≤ bs) →
          batches.length ≤ parts.length)) ∧
    (∀ (c : Command) (args : List Arg) (bs : Nat), args ≠ [] → 1 ≤ bs →
      (∀ a ∈ args, ∃ ts, parse_cmd_args a = some ts) →
      ∃ batches cmds, batched args bs = .ok batches ∧
        Command.foreach c args bs = .ok cmds ∧
        cmds.length = batches.length ∧
        (∀ i (hi : i < batches.length) (hc : i < cmds.length),
          ∃ ts, parse_cmd (batches.get ⟨i, hi⟩) = some ts ∧
            (cmds.get ⟨i, hc⟩).args = c.args ++ ts)) := by
  constructor
  · intro α l bs hne hbs
    have hn : 0 < l.length := List.length_pos.mpr hne
    have hk : 0 < cdiv l.length bs := cdiv_pos _ _ (by omega) hn
    have hb' : 0 < cdiv l.length (cdiv l.length bs) := cdiv_pos _ _ hk hn
    refine ⟨pySlices l (cdiv l.length (cdiv l.length bs)), batched_ok l bs hne hbs,
      pySlices_flatten l _ hb', ?_, ?_, ?_, ?_⟩
    · rw [pySlices_length l _ hb']
      exact cdiv_count_eq l.length bs hn (by omega)
    · intro b hb
      obtain ⟨h1, h2⟩ := pySlices_mem l _ hb' b hb
      exact ⟨h1, Nat.le_trans h2 (cdiv_cdiv_le l.length bs hn (by omega))⟩
    · intro i h
      exact pySlices_get_full l _ hb' i h
    · intro parts hflat hle
      rw [pySlices_length l _ hb', cdiv_count_eq l.length bs hn (by omega)]
      have hsum : l.length ≤ parts.length * bs := by
        have h1 : parts.flatten.length = (parts.map List.length).sum :=
          List.length_flatten parts
        have h2 : (parts.map List.length).sum ≤ (parts.map List.length).length • bs := by
          apply List.sum_le_card_nsmul
          intro x hx
          obtain ⟨pp, hpp, hpx⟩ := List.mem_map.mp hx
          rw [← hpx]
          exact hle pp hpp
        have h3 : (parts.map List.length).length • bs = parts.length * bs := by
          simp [smul_eq_mul]
        rw [hflat] at h1
        omega
      exact (cdiv_le_iff l.length bs parts.length (by omega)).mpr hsum
  · intro c args bs hne hbs hparse
    have hn : 0 < args.length := List.length_pos.mpr hne
    have hk : 0 < cdiv args.length bs := cdiv_pos _ _ (by omega) hn
    have hb' : 0 < cdiv args.length (cdiv args.length bs) := cdiv_pos _ _ hk hn
    have hbatch := batched_ok args bs hne hbs
    have hflat := pySlices_flatten args (cdiv args.length (cdiv args.length bs)) hb'
    have hcalls : ∀ b ∈ pySlices args (cdiv args.length (cdiv args.length bs)),
        ∃ cmd, Command.call c b = .ok cmd := by
      intro b hb
      have hsub : ∀ a ∈ b, ∃ ts, parse_cmd_args a = some ts := by
        intro a ha
        exact hparse a (by rw [← hflat]; exact List.mem_flatten.mpr ⟨b, hb, ha⟩)
      obtain ⟨ts, hts⟩ := parse_cmd_total b hsub
      exact ⟨Command.mk (c.args ++ ts) none c.env_vars none, by
        simp only [Command.call, hts]⟩
    obtain ⟨cmds, hcmds, hclen, hcget⟩ :=
      exceptMapList_total (fun b => Command.call c b) _ hcalls
    refine ⟨pySlices args (cdiv args.length (cdiv args.length bs)), cmds, hbatch, ?_,
      hclen, ?_⟩
    · simp only [Command.foreach, hbatch]
      exact hcmds
    · intro i hi hc
      have hcall := hcget i hi hc
      cases hp : parse_cmd ((pySlices args (cdiv args.length (cdiv args.length bs))).get
          ⟨i, hi⟩) with
      | none =>
        rw [show Command.call c ((pySlices args
            (cdiv args.length (cdiv args.length bs))).get ⟨i, hi⟩) = .error "csv.Error"
          from by simp only [Command.call, hp]] at hcall
        cases hcall
      | some ts =>
        refine ⟨ts, rfl, ?_⟩
        rw [show Command.call c ((pySlices args
            (cdiv args.length (cdiv args.length bs))).get ⟨i, hi⟩)
            = .ok (Command.mk (c.args ++ ts) none c.env_vars none)
          from by simp only [Command.call, hp]] at hcall
        injection hcall with heq
        rw [← heq]
        rfl

/-- Claim C3 witness: `batched([1,2,3,4,5], 2)` is `[[1,2],[3,4],[5]]`, with
batch count `ceil(5/2) = 3`, all batches within the size bound and the
non-last batches of equal size 2. -/
theorem c3_batched_witness :
    ∃ batches, batched [1, 2, 3, 4, 5] 2 = .ok batches ∧
      batches.flatten = [1, 2, 3, 4, 5] ∧
      batches.length = cdiv 5 2 ∧
      (∀ b ∈ batches, b ≠ [] ∧ b.length ≤ 2) ∧
      (∀ i (h : i + 1 < batches.length),
        (batches.get ⟨i, Nat.lt_of_succ_lt h⟩).length = cdiv 5 (cdiv 5 2)) ∧
      (∀ parts : List (List Nat), parts.flatten = [1, 2, 3, 4, 5] →
        (∀ p ∈ parts, p.length ≤ 2) → batches.length ≤ parts.length) :=
  c3_batched_partition.1 Nat [1, 2, 3, 4, 5] 2 (by decide) (by decide)

/-- Claim C4: `Command.fg` with `check` set fails on a non-zero exit code
with a `CalledProcessError` carrying the command description (`str(self)`),
the exit code, and the captured output — which is present only when `quiet`
was set (an unquiet run captures nothing); with `check` unset it returns the
exit code without raising; and a zero exit code never raises and returns 0. -/
theorem c4_fg_check (runner : Runner) (osEnv : List (String × String)) (c : Command)
    (quiet : Bool)
    (hnc : ∀ a e st, (runner a e st false).stdout = none) :
    ∀ res, res = runner c.args (dictMerge osEnv c.env_vars) c.stdin_cmd quiet →
      (res.returncode ≠ 0 →
        (Command.fg runner osEnv c quiet true).2
            = .error ⟨res.returncode, c.toStr, res.stdout⟩ ∧
          (quiet = false → res.stdout = none)) ∧
      ((Command.fg runner osEnv c quiet false).2 = .ok res.returncode) ∧
      (res.returncode = 0 → ∀ check,
        (Command.fg runner osEnv c quiet check).2 = .ok 0) := by
  intro res hres
  refine ⟨?_, ?_, ?_⟩
  · intro hrc
    constructor
    · simp only [Command.fg, ← hres]
      rw [if_pos hrc]
      simp
    · intro hq
      rw [hres, hq]
      exact hnc _ _ _
  · simp only [Command.fg, ← hres]
    by_cases hrc : res.returncode ≠ 0
    · rw [if_pos hrc]
      simp
    · rw [if_neg hrc]
  · intro h0 check
    simp only [Command.fg, ← hres]
    rw [if_neg (by simp [h0])]
    rw [h0]

/-- Claim C4 witness: a process exiting 1 under `quiet=True, check=True`
raises the error carrying the description, the code and the captured output. -/
theorem c4_fg_witness :
    (Command.fg (fun _ _ _ cap => ⟨1, if cap then some "out" else none, none⟩) []
        (Command.mk ["false"] none [] (some "/bin/false")) true true).2
      = .error ⟨1, "false", some "out"⟩ := by
  have h := (c4_fg_check (fun _ _ _ cap => ⟨1, if cap then some "out" else none, none⟩) []
    (Command.mk ["false"] none [] (some "/bin/false")) true (fun a e st => rfl)
    ⟨1, some "out", none⟩ rfl).1 (by decide)
  exact h.1

/-- Claim C5, corrected.  `pipe` into an existing Command copies the
*receiver's* environment overrides, not the target's: with receiver overrides
`{"A": "1"}` and target overrides `{"B": "2"}`, the piped command carries
`{"A": "1"}`. -/
theorem c5_pipe_counterexample :
    (Command.pipe (Command.mk ["echo", "hi"] none [("A", "1")] (some "echo"))
        (Command.mk ["wc", "-c"] none [("B", "2")] (some "wc"))).env_vars = [("A", "1")] ∧
    (Command.mk ["wc", "-c"] none [("B", "2")] (some "wc") : Command).env_vars
      = [("B", "2")] ∧
    ([("A", "1")] : List (String × String)) ≠ [("B", "2")] := by
  refine ⟨rfl, rfl, by decide⟩

/-- Claim C5 (amended): `r.pipe(t)` returns a new Command with `t`'s token
vector and upstream set to `r`, but with the environment overrides copied
from the receiver `r` (not from `t`) and no resolved executable; when the
pipe arguments are not a Command, the result is freshly constructed from
those arguments with `r` as upstream and `r`'s environment overrides; `r` and
`t` themselves are unchanged (all operations are value-producing). -/
theorem c5_pipe_amended :
    (∀ r t : Command, (Command.pipe r t).args = t.args ∧
      (Command.pipe r t).stdin_cmd = some r ∧
      (Command.pipe r t).env_vars = r.env_vars ∧
      (Command.pipe r t).executable = none) ∧
    (∀ (fsExists : String → Bool) (which : String → Option String) (r : Command)
      (items : List Arg) (exe : String) (rest : List String),
      parse_cmd items = some (exe :: rest) → fsExists exe = true →
      Command.pipe_args fsExists which r items
        = .ok (Command.mk (exe :: rest) (some r) r.env_vars (some exe))) := by
  constructor
  · intro r t
    exact ⟨rfl, rfl, rfl, rfl⟩
  · intro fs which r items exe rest h hfs
    unfold Command.pipe_args Command.make
    rw [h]
    simp [hfs]

/-- Claim C5 witness: piping into freshly-constructed arguments yields the
target tokens with the receiver as upstream and the receiver's overrides. -/
theorem c5_pipe_witness :
    Command.pipe_args (fun _ => true) (fun _ => none)
        (Command.mk ["echo", "hi"] none [("A", "1")] (some "echo")) [Arg.other "wc -c"]
      = .ok (Command.mk ["wc", "-c"]
          (some (Command.mk ["echo", "hi"] none [("A", "1")] (some "echo")))
          [("A", "1")] (some "wc")) :=
  c5_pipe_amended.2 (fun _ => true) (fun _ => none)
    (Command.mk ["echo", "hi"] none [("A", "1")] (some "echo")) [Arg.other "wc -c"]
    "wc" ["-c"] rfl rfl

/-- Claim C6, corrected.  `env` builds its result from a fresh `Command()`
and never copies the receiver's `stdin_cmd`: the upstream pipe source is
dropped (reset to `None`), not preserved. -/
theorem c6_env_counterexample :
    (Command.env (Command.mk ["wc", "-c"]
        (some (Command.mk ["echo"] none [] (some "echo"))) [] (some "wc"))
        "K" "V").stdin_cmd = none ∧
    (Command.mk ["wc", "-c"] (some (Command.mk ["echo"] none [] (some "echo"))) []
        (some "wc") : Command).stdin_cmd
      = some (Command.mk ["echo"] none [] (some "echo")) ∧
    (none : Option Command) ≠ some (Command.mk ["echo"] none [] (some "echo")) := by
  refine ⟨rfl, rfl, by simp⟩

/-- Claim C6 (amended): `c.env(k, v)` returns a new Command whose environment
overrides are `c`'s merged with `{k: v}` (the new key winning on conflict, as
witnessed through lookup) and whose token vector equals `c`'s; however the
upstream pipe source and the resolved executable are not carried over — both
are reset to none; `c` itself is not mutated. -/
theorem c6_env_amended (c : Command) (key value : String) :
    (Command.env c key value).args = c.args ∧
    (Command.env c key value).stdin_cmd = none ∧
    (Command.env c key value).executable = none ∧
    (∀ k, ((Command.env c key value).env_vars).lookup k
      = if k = key then some value else c.env_vars.lookup k) := by
  refine ⟨rfl, rfl, rfl, ?_⟩
  intro k
  show (dictUpdate c.env_vars key value).lookup k = _
  exact lookup_dictUpdate c.env_vars k key value

/-- Claim C7: currying appends the tokenization of the new items to the
receiver's token vector and inherits the environment overrides unchanged;
the receiver (a value) is not modified. -/
theorem c7_curry (c : Command) (items : List Arg) (ts : List String)
    (h : parse_cmd items = some ts) :
    ∃ c', Command.call c items = .ok c' ∧ c'.args = c.args ++ ts ∧
      c'.env_vars = c.env_vars := by
  refine ⟨Command.mk (c.args ++ ts) none c.env_vars none, ?_, rfl, rfl⟩
  simp only [Command.call, h]

/-- Claim C7 witness: currying `cargo` with `"clippy --fix"` appends the two
split tokens and keeps the overrides. -/
theorem c7_curry_witness :
    ∃ c', Command.call (Command.mk ["cargo"] none [("X", "1")] (some "cargo"))
        [Arg.other "clippy --fix"] = .ok c' ∧
      c'.args = ["cargo"] ++ ["clippy", "--fix"] ∧ c'.env_vars = [("X", "1")] :=
  c7_curry (Command.mk ["cargo"] none [("X", "1")] (some "cargo"))
    [Arg.other "clippy --fix"] ["clippy", "--fix"] rfl

theorem nodup_keys_pairwise (ls : List String) (h : (ls.filterMap keyOf).Nodup) :
    List.Pairwise (fun x y => ∀ k, keyOf x = some k → keyOf y ≠ some k) ls := by
  unfold List.Nodup at h
  rw [List.pairwise_filterMap] at h
  refine h.imp ?_
  intro a b hab k hka hkb
  exact hab k (by simp [hka]) k (by simp [hkb]) rfl

/-- Claim C8, corrected.  On the spec's own example the filter aborts with
exit code 1 and a message citing the current index 2 and the original index
0, but it does **not** produce "no output on standard output": the two lines
preceding the duplicate were already echoed when the abort fires. -/
theorem c8_filter_counterexample :
    detect_duplication ["open: 1", "close: 2", "open: 3"]
      = (["open: 1", "close: 2"], 1,
          some "syscall open: redefined in L2(previous definition in L0)") ∧
    (["open: 1", "close: 2"] : List String) ≠ [] := by
  refine ⟨rfl, by decide⟩

/-- Claim C8 (amended), for whitespace-trimmed input lines (the filter strips
each line first): a non-comment line containing `':'` yields its first
whitespace-delimited token as key.  If no key recurs, every line is echoed
verbatim in order and the process exits zero.  If a line `l` repeats the key
`k` first defined on the line at index `pre1.length` (no earlier line has
`k`, and no key recurs before `l`), the process aborts with exit code 1 and
the message citing the current and the original line indices — having already
echoed every line preceding `l`, so the preceding output is on stdout. -/
theorem c8_filter_amended (lines : List String) (htrim : ∀ l ∈ lines, pyStrip l = l) :
    ((lines.filterMap keyOf).Nodup → detect_duplication lines = (lines, 0, none)) ∧
    (∀ (pre1 : List String) (p : String) (pre2 : List String) (l : String)
        (post : List String) (k : String),
      lines = (pre1 ++ p :: pre2) ++ l :: post →
      ((pre1 ++ p :: pre2).filterMap keyOf).Nodup →
      keyOf p = some k → keyOf l = some k →
      (∀ q ∈ pre1, keyOf q ≠ some k) →
      detect_duplication lines = (pre1 ++ p :: pre2, 1,
        some (dd_message k (pre1 ++ p :: pre2).length pre1.length))) := by
  have hmap : lines.map pyStrip = lines := by
    have h := List.map_congr_left (fun a ha => htrim a ha)
    rw [h]
    exact List.map_id lines
  constructor
  · intro hnd
    unfold detect_duplication
    rw [hmap]
    rw [dd_go_nodup lines [] 0 (nodup_keys_pairwise lines hnd) (fun l hl k hk => rfl)]
  · intro pre1 p pre2 l post k hsplit hnd hkp hkl hpre1
    unfold detect_duplication
    rw [hmap, hsplit]
    rw [dd_go_main_abort pre1 p pre2 l post k [] 0
      (nodup_keys_pairwise _ hnd) (fun x hx k' hk' => rfl) hkp hkl hpre1]
    simp

/-- Claim C8 witness: on two distinct-keyed lines the filter echoes both and
exits zero. -/
theorem c8_filter_witness :
    detect_duplication ["open: 1", "close: 2"] = (["open: 1", "close: 2"], 0, none) :=
  (c8_filter_amended ["open: 1", "close: 2"] (by decide)).1 (by decide)

/-- Claim C9: the Parallel Executor returns one result per submitted Command,
in submission order — the i-th result is the i-th command's result — for
*every* completion order of the concurrently running processes (modelled by
the `schedule` permutation), in both the foreground mode and the stdout
mode. -/
theorem c9_parallel_order (runner : Runner) (osEnv : List (String × String))
    (commands : List Command) (schedule : List Nat) (quiet check : Bool)
    (hs : ∀ i, i < commands.length → i ∈ schedule) :
    (∃ rs, ParallelCommands.fg runner osEnv commands schedule quiet check = some rs ∧
      rs.length = commands.length ∧
      ∀ i (hi : i < commands.length) (hr : i < rs.length),
        rs.get ⟨i, hr⟩ = (Command.fg runner osEnv (commands.get ⟨i, hi⟩) quiet check).2) ∧
    (∃ ss, ParallelCommands.stdoutAll runner osEnv commands schedule = some ss ∧
      ss.length = commands.length ∧
      ∀ i (hi : i < commands.length) (hr : i < ss.length),
        ss.get ⟨i, hr⟩ = Command.stdoutRun runner osEnv (commands.get ⟨i, hi⟩) true) := by
  constructor
  · refine ⟨commands.map (fun c => (Command.fg runner osEnv c quiet check).2), ?_, by simp, ?_⟩
    · unfold ParallelCommands.fg
      exact pool_map_eq _ commands schedule hs
    · intro i hi hr
      simp
  · refine ⟨commands.map (fun c => Command.stdoutRun runner osEnv c true), ?_, by simp, ?_⟩
    · unfold ParallelCommands.stdoutAll
      exact pool_map_eq _ commands schedule hs
    · intro i hi hr
      simp

/-- Claim C9 witness: two commands (`true` exits 0, `false` exits 1) run with
the completion schedule reversed still yield results in submission order. -/
theorem c9_parallel_witness :
    (∃ rs, ParallelCommands.fg
        (fun a _ _ _ => ⟨if a = ["true"] then 0 else 1, none, none⟩) []
        [Command.mk ["true"] none [] (some "true"),
         Command.mk ["false"] none [] (some "false")] [1, 0] true false = some rs ∧
      rs.length = 2 ∧
      ∀ i (hi : i < 2) (hr : i < rs.length),
        rs.get ⟨i, hr⟩ = (Command.fg
          (fun a _ _ _ => ⟨if a = ["true"] then 0 else 1, none, none⟩) []
          ([Command.mk ["true"] none [] (some "true"),
            Command.mk ["false"] none [] (some "false")].get ⟨i, hi⟩) true false).2) ∧
    (∃ ss, ParallelCommands.stdoutAll
        (fun a _ _ _ => ⟨if a = ["true"] then 0 else 1, none, none⟩) []
        [Command.mk ["true"] none [] (some "true"),
         Command.mk ["false"] none [] (some "false")] [1, 0] = some ss ∧
      ss.length = 2 ∧
      ∀ i (hi : i < 2) (hr : i < ss.length),
        ss.get ⟨i, hr⟩ = Command.stdoutRun
          (fun a _ _ _ => ⟨if a = ["true"] then 0 else 1, none, none⟩) []
          ([Command.mk ["true"] none [] (some "true"),
            Command.mk ["false"] none [] (some "false")].get ⟨i, hi⟩) true) :=
  c9_parallel_order (fun a _ _ _ => ⟨if a = ["true"] then 0 else 1, none, none⟩) []
    [Command.mk ["true"] none [] (some "true"),
     Command.mk ["false"] none [] (some "false")] [1, 0] true false
    (by decide)

theorem batched_nil {α : Type} (bs : Nat) (hbs : 1 ≤ bs) :
    batched ([] : List α) bs = .error "ZeroDivisionError" := by
  unfold batched
  rw [if_neg (by omega)]
  simp [cdiv_zero_left]

/-- Claim C10: on the empty input, `ceil(0 / batchSize)` gives a batch count
of zero, which is then used as a divisor, so consuming `batched`'s result
raises `ZeroDivisionError` instead of yielding an empty sequence of batches;
`foreach` on an empty argument sequence therefore fails the same way when its
(lazy) result is consumed. -/
theorem c10_batched_empty (α : Type) (bs : Nat) (hbs : 1 ≤ bs) :
    cdiv 0 bs = 0 ∧
    batched ([] : List α) bs = .error "ZeroDivisionError" ∧
    (∀ c : Command, Command.foreach c [] bs = .error "ZeroDivisionError") := by
  refine ⟨cdiv_zero_left bs, batched_nil bs hbs, ?_⟩
  intro c
  simp only [Command.foreach, batched_nil bs hbs]

/-- Claim C10 witness: the concrete empty batch request with batch size 2. -/
theorem c10_batched_witness :
    cdiv 0 2 = 0 ∧
    batched ([] : List Nat) 2 = .error "ZeroDivisionError" ∧
    (∀ c : Command, Command.foreach c [] 2 = .error "ZeroDivisionError") :=
  c10_batched_empty Nat 2 (by decide)
